import Mathlib

/-!
Verification of the duikt proof-of-work ledger (Go sources: the unnamed main
service file and `lab1/main.go`) against its natural-language specification.

Modelling conventions:
* Go `int` / `int64` fields become `Int` (no arithmetic in the source can
  overflow within the claims considered); `float64` amounts become `ℚ`
  (exact arithmetic stand-in for the demo's real-number amounts).
* SHA-256 is abstracted: every definition is parametric in a digest function
  `sha : String → String` standing for hex-encoded `sha256.Sum256`.  No claim
  depends on properties of the digest itself, only on how the code builds the
  input record and uses the output, so theorems quantify over `sha`.
* The unbounded Go mining loops are modelled with explicit fuel, returning
  `Option`; `none` corresponds to the loop not having terminated yet.
* Effectful inputs (random IDs, `time.Now()`) become explicit parameters.
* Go slice indexing `Chain[len(Chain)-1]`, which panics on an empty slice,
  is modelled with `List.getLast?`.
-/

namespace Duikt

/-- `Transaction` (main service file, lines 19–26): id, from, to, amount,
timestamp. -/
structure Transaction where
  ID : String
  From : String
  To : String
  Amount : ℚ
  Timestamp : Int
deriving DecidableEq, Repr

/-- `Block` (main service file, lines 29–36). -/
structure Block where
  Index : Int
  Timestamp : Int
  Transactions : List Transaction
  Nonce : Int
  PreviousHash : String
  Hash : String
deriving DecidableEq, Repr

/-- `Blockchain` (lines 39–43); the mutex is a concurrency artefact with no
sequential content. -/
structure Blockchain where
  Chain : List Block
  Difficulty : Nat
deriving DecidableEq, Repr

/-- One transaction rendered in the JSON field order of `json.Marshal`
(`id`, `from`, `to`, `amount`, `timestamp`); the amount is rendered through
`toString` of the exact rational standing in for Go's float formatting. -/
def transactionToString (t : Transaction) : String :=
  "\x7b\"id\":\"" ++ t.ID ++ "\",\"from\":\"" ++ t.From ++ "\",\"to\":\"" ++
    t.To ++ "\",\"amount\":" ++ toString t.Amount ++ ",\"timestamp\":" ++
    toString t.Timestamp ++ "\x7d"

/-- `transactionsToString` (lines 82–88): empty string for an empty slice,
otherwise the JSON array rendering of the list. -/
def transactionsToString (txs : List Transaction) : String :=
  if txs = [] then ""
  else "[" ++ String.intercalate "," (txs.map transactionToString) ++ "]"

/-- `calculateHash` (lines 76–80): digest of the concatenation of index,
timestamp, serialised transactions, nonce and previous hash.  The block's own
`Hash` field is not part of the record. -/
def calculateHash (sha : String → String) (b : Block) : String :=
  sha (toString b.Index ++ toString b.Timestamp ++
    transactionsToString b.Transactions ++ toString b.Nonce ++ b.PreviousHash)

/-- `strings.HasPrefix`, modelled on the character lists of the strings. -/
def hasPrefixB (s pre : String) : Bool :=
  pre.data.isPrefixOf s.data

/-- `strings.HasSuffix`, modelled on the character lists of the strings. -/
def hasSuffixB (s suf : String) : Bool :=
  suf.data.isSuffixOf s.data

/-- `createTransaction` (lines 91–100); the generated random ID and
`time.Now()` are explicit parameters. -/
def createTransaction (fromAddr toAddr : String) (amount : ℚ)
    (id : String) (ts : Int) : Transaction :=
  { ID := id, From := fromAddr, To := toAddr, Amount := amount, Timestamp := ts }

/-- `addTransactionToMempool` (lines 109–113): append to the pending slice. -/
def addTransactionToMempool (txs : List Transaction) (tx : Transaction) :
    List Transaction :=
  txs ++ [tx]

/-- `flushMempool` (lines 116–128): clamp `n` to the pool length when
`n <= 0 || n > len`, return the first `n` transactions and keep the rest. -/
def flushMempool (n : Int) (txs : List Transaction) :
    List Transaction × List Transaction :=
  let k : Int := if n ≤ 0 ∨ n > (txs.length : Int) then (txs.length : Int) else n
  (txs.take k.toNat, txs.drop k.toNat)

/-- The loop body of `proofOfWork` (lines 135–147), with fuel: try the current
nonce, return on success, otherwise retry with `nonce+1`.  The
`time.Sleep` yield every 1_000_000 nonces has no sequential effect. -/
def proofOfWorkAux (sha : String → String) (b : Block) (target : String) :
    Nat → Int → Option (Int × String)
  | 0, _ => none
  | fuel + 1, nonce =>
    let hash := calculateHash sha { b with Nonce := nonce }
    if hasPrefixB hash target then some (nonce, hash)
    else proofOfWorkAux sha b target fuel (nonce + 1)

/-- `proofOfWork` (lines 131–148): search from nonce 0 for a hash beginning
with `difficulty` zero hex digits. -/
def proofOfWork (sha : String → String) (b : Block) (difficulty : Nat)
    (fuel : Nat) : Option (Int × String) :=
  proofOfWorkAux sha b (String.mk (List.replicate difficulty '0')) fuel 0

/-- `addBlock` (lines 151–155): append the block to the chain.  The Go code
performs no validation of any kind here. -/
def addBlock (bc : Blockchain) (b : Block) : Blockchain :=
  { bc with Chain := bc.Chain ++ [b] }

/-- `getLastBlock` (lines 158–162): `Chain[len(Chain)-1]`, partial on an
empty chain. -/
def getLastBlock (bc : Blockchain) : Option Block :=
  bc.Chain.getLast?

/-- The per-transaction update of `getBalance` (lines 170–177 and 181–188):
add the amount where the address is recipient, subtract where it is sender. -/
def balanceStep (address : String) (bal : ℚ) (tx : Transaction) : ℚ :=
  let bal := if tx.To = address then bal + tx.Amount else bal
  if tx.From = address then bal - tx.Amount else bal

/-- `getBalance` (lines 165–191), with the loop body factored out as
`balanceStep` (the Go code repeats the same two conditionals in the chain
loop and the mempool loop). -/
def getBalance (chain : List Block) (pool : List Transaction)
    (address : String) : ℚ :=
  let bal := List.foldl
    (fun bal blk => List.foldl (balanceStep address) bal blk.Transactions)
    (0 : ℚ) chain
  List.foldl (balanceStep address) bal pool

/-- `init` (lines 54–73): difficulty 3, empty mempool, and the genesis block
(index 0, no transactions, nonce 0, previous hash sentinel "0") whose hash is
computed over its own fields. -/
def genesisBlock (sha : String → String) (ts : Int) : Block :=
  let g : Block :=
    { Index := 0, Timestamp := ts, Transactions := [], Nonce := 0,
      PreviousHash := "0", Hash := "" }
  { g with Hash := calculateHash sha g }

/-- The whole service state: the chain (with its difficulty) and the mempool. -/
structure NodeState where
  bc : Blockchain
  pool : List Transaction
deriving DecidableEq, Repr

/-- State after `init` (lines 54–73): genesis-only chain, difficulty 3, empty
mempool. -/
def initState (sha : String → String) (ts : Int) : NodeState :=
  { bc := { Chain := [genesisBlock sha ts], Difficulty := 3 }, pool := [] }

/-- The `POST /transactions` handler (lines 199–212).  Gin's binding
(`required` on both addresses, `required,gt=0` on the amount) rejects empty
addresses and non-positive amounts with HTTP 400 before the mempool is
touched; on success the created transaction is appended.  The result carries
the response and the mempool after the call. -/
def postTransactions (fromAddr toAddr : String) (amount : ℚ)
    (id : String) (ts : Int) (pool : List Transaction) :
    Except String Transaction × List Transaction :=
  if fromAddr = "" ∨ toAddr = "" ∨ ¬ 0 < amount then
    (Except.error "InvalidTransaction", pool)
  else
    let tx := createTransaction fromAddr toAddr amount id ts
    (Except.ok tx, addTransactionToMempool pool tx)

/-- The coinbase reward transaction of the mine handler (lines 239–245):
synthetic sender "network", fixed amount 1.0, recipient the requested (or
default "miner-reward") miner address. -/
def rewardTransaction (miner rewardId : String) (rewardTs : Int) : Transaction :=
  { ID := rewardId, From := "network", To := miner, Amount := 1,
    Timestamp := rewardTs }

/-- Steps 4–6 of the mine handler (lines 250–259): build the candidate from a
previously read tip, run proof-of-work, set the found nonce and hash.  Split
out from `mine` so that the stale-tip interleaving of two concurrent mine
calls can be stated explicitly. -/
def mineAttempt (sha : String → String) (tip : Block)
    (selected : List Transaction) (blockTs : Int) (difficulty : Nat)
    (fuel : Nat) : Option Block :=
  let newBlock : Block :=
    { Index := tip.Index + 1, Timestamp := blockTs, Transactions := selected,
      Nonce := 0, PreviousHash := tip.Hash, Hash := "" }
  match proofOfWork sha newBlock difficulty fuel with
  | none => none
  | some (nonce, hash) => some { newBlock with Nonce := nonce, Hash := hash }

/-- The `POST /mine` handler (lines 225–267): drain up to `maxTxs`
transactions, prepend the reward, read the tip, mine a candidate, append it.
`none` models a call that has not returned (empty chain cannot happen in a
reachable state; exhausted fuel models a still-running search). -/
def mine (sha : String → String) (maxTxs : Int) (miner rewardId : String)
    (rewardTs blockTs : Int) (fuel : Nat) (s : NodeState) :
    Option (Block × NodeState) :=
  let drained := flushMempool maxTxs s.pool
  let selected := rewardTransaction miner rewardId rewardTs :: drained.1
  match getLastBlock s.bc with
  | none => none
  | some last =>
    match mineAttempt sha last selected blockTs s.bc.Difficulty fuel with
    | none => none
    | some newBlock =>
      some (newBlock, { bc := addBlock s.bc newBlock, pool := drained.2 })

/-- Hash-link validity of one adjacent pair: the later block records the
earlier block's hash and its own hash is `calculateHash` of itself (spec §8,
first testable property). -/
def validLink (sha : String → String) (prev b : Block) : Bool :=
  b.PreviousHash == prev.Hash && b.Hash == calculateHash sha b

/-- Every adjacent pair of the chain is hash-linked; the head block (genesis)
is unconstrained. -/
def chainLinkedB (sha : String → String) : List Block → Bool
  | [] => true
  | [_] => true
  | a :: b :: rest => validLink sha a b && chainLinkedB sha (b :: rest)

/-- States reachable from `init` by the public operations, each applied as
one atomic (linearized) step: transaction submission, mining, and the
read-only queries (which do not change the state and need no constructor). -/
inductive Reachable (sha : String → String) : NodeState → Prop where
  | init (ts : Int) : Reachable sha (initState sha ts)
  | step_submit (s : NodeState) (fromAddr toAddr : String) (amount : ℚ)
      (id : String) (ts : Int) (tx : Transaction) (pool' : List Transaction) :
      Reachable sha s →
      postTransactions fromAddr toAddr amount id ts s.pool = (Except.ok tx, pool') →
      Reachable sha { s with pool := pool' }
  | step_mine (s : NodeState) (maxTxs : Int) (miner rewardId : String)
      (rewardTs blockTs : Int) (fuel : Nat) (b : Block) (s' : NodeState) :
      Reachable sha s →
      mine sha maxTxs miner rewardId rewardTs blockTs fuel s = some (b, s') →
      Reachable sha s'

/-- The signed contribution of one transaction to an address's balance
(spec §4.4: add amounts where the address is recipient, subtract where it is
sender). -/
def txDelta (address : String) (t : Transaction) : ℚ :=
  (if t.To = address then t.Amount else 0) -
    (if t.From = address then t.Amount else 0)

/-- Balance as the spec words it: the sum of signed contributions over all
transactions in all committed blocks and in the mempool. -/
def balanceSpec (chain : List Block) (pool : List Transaction)
    (address : String) : ℚ :=
  (((chain.map Block.Transactions).flatten ++ pool).map (txDelta address)).sum

/-! ### The fixed-suffix variant (`lab1/main.go`) -/

/-- `BlockHlukhov` (lab1, lines 13–20). -/
structure BlockHlukhov where
  Index : Int
  Timestamp : String
  Data : String
  PrevHash : String
  Hash : String
  Nonce : Int
deriving DecidableEq, Repr

/-- `calculateHashHlukhov` (lab1, lines 28–34): digest of index, timestamp,
data, previous hash and nonce concatenated. -/
def calculateHashHlukhov (sha : String → String) (b : BlockHlukhov) : String :=
  sha (toString b.Index ++ b.Timestamp ++ b.Data ++ b.PrevHash ++
    toString b.Nonce)

/-- The mining loop of `addBlockHlukhov` (lab1, lines 48–54), with fuel: set
the block's hash, stop when it ends in "09", otherwise increment the nonce. -/
def mineHlukhovAux (sha : String → String) : Nat → BlockHlukhov →
    Option BlockHlukhov
  | 0, _ => none
  | fuel + 1, b =>
    let b := { b with Hash := calculateHashHlukhov sha b }
    if hasSuffixB b.Hash "09" then some b
    else mineHlukhovAux sha fuel { b with Nonce := b.Nonce + 1 }

/-- `addBlockHlukhov` (lab1, lines 37–57): build the successor of the last
block (index = chain length, previous hash = last block's hash, nonce 0),
mine it until its hash ends in "09", append it.  Partial on an empty chain
(Go would panic) and on exhausted fuel (the Go loop is unbounded). -/
def addBlockHlukhov (sha : String → String) (blocks : List BlockHlukhov)
    (data ts : String) (fuel : Nat) : Option (List BlockHlukhov) :=
  match blocks.getLast? with
  | none => none
  | some prevBlock =>
    let newBlock : BlockHlukhov :=
      { Index := (blocks.length : Int), Timestamp := ts, Data := data,
        PrevHash := prevBlock.Hash, Hash := "", Nonce := 0 }
    (mineHlukhovAux sha fuel newBlock).map (fun b => blocks ++ [b])

/-- `createGenesisBlockHlukhov` (lab1, lines 60–70). -/
def createGenesisBlockHlukhov (sha : String → String) (ts : String) :
    BlockHlukhov :=
  let genesis : BlockHlukhov :=
    { Index := 0, Timestamp := ts, Data := "Genesis Block",
      PrevHash := "Hlukhov", Hash := "", Nonce := 18092004 }
  { genesis with Hash := calculateHashHlukhov sha genesis }

/-! ### Concrete instantiations used to test the claims

The digest parameter is instantiated with small executable functions; the
claims under test constrain how the code builds hash inputs and uses hash
outputs, not the digest itself, so any concrete function exercises them. -/

/-- Identity digest, for tests that never look at hash contents. -/
def shaId : String → String := fun s => s

/-- Constant digest meeting difficulty 3, so mining succeeds at nonce 0. -/
def sha0 : String → String := fun _ => "000h"

/-- Length-tagged digest meeting difficulty 3: distinct record lengths give
distinct hashes, so a stale append is visible as a broken link. -/
def shaLen : String → String := fun s => "000:" ++ toString s.length

/-- Digest whose first difficulty-2 success is at nonce 2 (the record of
`bC3` at nonce `n` is `"00" ++ toString n`). -/
def shaC3 : String → String := fun s => if s = "002" then "00yes" else "x"

/-- Digest for the lab1 variant whose first "09"-suffixed hash appears at
nonce 1 (the lab1 record always ends in the decimal nonce). -/
def shaC9 : String → String := fun s => if hasSuffixB s "1" then "ab09" else "ab"

/-- A genesis-only ledger over the identity digest. -/
def bc1 : Blockchain := { Chain := [genesisBlock shaId 0], Difficulty := 3 }

/-- A block failing every append-time check of the claim: wrong index, wrong
previous hash, wrong own hash. -/
def bad1 : Block :=
  { Index := 9, Timestamp := 9, Transactions := [], Nonce := 9,
    PreviousHash := "bbbb", Hash := "cccc" }

def t1 : Transaction :=
  { ID := "t1", From := "u", To := "v", Amount := 2, Timestamp := 0 }

/-- Genesis-only state with one pending transaction, for the `maxTxs = 0`
mine call. -/
def s5state : NodeState :=
  { bc := { Chain := [genesisBlock sha0 0], Difficulty := 3 }, pool := [t1] }

/-- Fifteen pending transactions in submission order (spec Scenario 3). -/
def pool15 : List Transaction :=
  (List.range 15).map fun i =>
    { ID := toString i, From := "u", To := "v", Amount := 1, Timestamp := 0 }

def s15 : NodeState :=
  { bc := { Chain := [genesisBlock sha0 0], Difficulty := 3 }, pool := pool15 }

def mineRes15 : Option (Block × NodeState) := mine sha0 10 "m" "r" 1 2 1 s15

def b15 : Block := (mineRes15.getD (genesisBlock sha0 0, s15)).1

def s15after : NodeState := (mineRes15.getD (genesisBlock sha0 0, s15)).2

/-- One mine step from the initial state, for the reachable-state witness. -/
def mineRes2 : Option (Block × NodeState) :=
  mine sha0 10 "m" "r" 1 2 1 (initState sha0 0)

def w2state : NodeState :=
  (mineRes2.getD (genesisBlock sha0 0, initState sha0 0)).2

def w2block : Block :=
  (mineRes2.getD (genesisBlock sha0 0, initState sha0 0)).1

/-- Tip shared by the two racing mine attempts. -/
def gB7 : Block := genesisBlock shaLen 0

def bc7 : Blockchain := { Chain := [gB7], Difficulty := 3 }

def st7 : NodeState := { bc := bc7, pool := [] }

/-- First racing attempt, built from the tip `gB7`. -/
def attemptA7 : Option Block :=
  mineAttempt shaLen gB7 [rewardTransaction "m" "ra" 1] 1 3 1

/-- Second racing attempt, built from the same tip `gB7`. -/
def attemptB7 : Option Block :=
  mineAttempt shaLen gB7 [rewardTransaction "m" "rb" 2] 2 3 1

def bA7 : Block := attemptA7.getD gB7

def bB7 : Block := attemptB7.getD gB7

/-- The ledger after the interleaving in which both attempts read the tip
`gB7` before either appended: both `addBlock` calls return normally. -/
def race7 : Blockchain := addBlock (addBlock bc7 bA7) bB7

/-- Candidate block for the proof-of-work witness: empty previous hash, so
its hash record is `"00" ++ toString nonce`. -/
def bC3 : Block :=
  { Index := 0, Timestamp := 0, Transactions := [], Nonce := 0,
    PreviousHash := "", Hash := "" }

def gH9 : BlockHlukhov := createGenesisBlockHlukhov shaC9 "t"

def tAlice : Transaction :=
  { ID := "a1", From := "alice", To := "bob", Amount := 5, Timestamp := 0 }

/-! ## Helper lemmas -/

/-- Unfolding `flushMempool`: it returns the `take`/`drop` split of the pool
at the clamped count. -/
theorem flushMempool_eq (n : Int) (p : List Transaction) :
    flushMempool n p =
      (p.take (if n ≤ 0 ∨ n > (p.length : Int) then p.length else n.toNat),
       p.drop (if n ≤ 0 ∨ n > (p.length : Int) then p.length else n.toNat)) := by
  unfold flushMempool
  split <;> simp

/-- What a successful `proofOfWorkAux` run guarantees: the returned hash is
the block's hash at the returned nonce, it meets the target, the nonce is at
least the starting nonce, and no nonce from the start up to it meets the
target. -/
theorem proofOfWorkAux_some (sha : String → String) (b : Block)
    (target : String) (fuel : Nat) :
    ∀ (start nonce : Int) (hash : String),
    proofOfWorkAux sha b target fuel start = some (nonce, hash) →
    hash = calculateHash sha { b with Nonce := nonce } ∧
    hasPrefixB hash target = true ∧ start ≤ nonce ∧
    ∀ m : Int, start ≤ m → m < nonce →
      hasPrefixB (calculateHash sha { b with Nonce := m }) target = false := by
  induction fuel with
  | zero =>
    intro start nonce hash h
    simp [proofOfWorkAux] at h
  | succ fuel ih =>
    intro start nonce hash h
    rw [proofOfWorkAux] at h
    by_cases hp :
        hasPrefixB (calculateHash sha { b with Nonce := start }) target = true
    · simp only [hp, if_true] at h
      obtain ⟨rfl, rfl⟩ := Prod.mk.injEq .. ▸ Option.some.injEq .. ▸ h
      exact ⟨rfl, hp, le_refl _, fun m h1 h2 => absurd h1 (by omega)⟩
    · simp only [hp, if_false, Bool.not_eq_true] at h
      rw [if_neg (by simp_all)] at h
      obtain ⟨h1, h2, h3, h4⟩ := ih (start + 1) nonce hash h
      refine ⟨h1, h2, by omega, fun m hm1 hm2 => ?_⟩
      rcases eq_or_lt_of_le hm1 with heq | hlt
      · subst heq
        simpa using hp
      · exact h4 m (by omega) hm2

/-- What a successful `mineAttempt` guarantees about the produced block. -/
theorem mineAttempt_some {sha : String → String} {tip : Block}
    {selected : List Transaction} {blockTs : Int} {difficulty fuel : Nat}
    {b : Block}
    (h : mineAttempt sha tip selected blockTs difficulty fuel = some b) :
    b.Index = tip.Index + 1 ∧ b.Timestamp = blockTs ∧
    b.Transactions = selected ∧ b.PreviousHash = tip.Hash ∧
    b.Hash = calculateHash sha b ∧
    hasPrefixB b.Hash (String.mk (List.replicate difficulty '0')) = true := by
  simp only [mineAttempt] at h
  split at h
  · exact absurd h (by simp)
  next nonce hash hp =>
    simp only [Option.some.injEq] at h
    subst h
    obtain ⟨h1, h2, _, _⟩ :=
      proofOfWorkAux_some sha _ _ fuel 0 nonce hash hp
    exact ⟨rfl, rfl, rfl, rfl, h1, h2⟩

/-- What a successful `mine` call guarantees: the chain grows by exactly the
mined block, the pool keeps exactly the undrained suffix, and the block links
to the previous tip, carries the reward followed by the drained transactions,
and satisfies the hash and difficulty conditions. -/
theorem mine_some {sha : String → String} {maxTxs : Int}
    {miner rewardId : String} {rewardTs blockTs : Int} {fuel : Nat}
    {s : NodeState} {b : Block} {s' : NodeState}
    (h : mine sha maxTxs miner rewardId rewardTs blockTs fuel s = some (b, s')) :
    ∃ last, getLastBlock s.bc = some last ∧
      s'.bc = addBlock s.bc b ∧
      s'.pool = (flushMempool maxTxs s.pool).2 ∧
      b.Index = last.Index + 1 ∧
      b.Transactions =
        rewardTransaction miner rewardId rewardTs ::
          (flushMempool maxTxs s.pool).1 ∧
      b.PreviousHash = last.Hash ∧
      b.Hash = calculateHash sha b ∧
      hasPrefixB b.Hash (String.mk (List.replicate s.bc.Difficulty '0')) =
        true := by
  simp only [mine] at h
  split at h
  · exact absurd h (by simp)
  next last hg =>
    split at h
    · exact absurd h (by simp)
    next nb ha =>
      simp only [Option.some.injEq, Prod.mk.injEq] at h
      obtain ⟨rfl, rfl⟩ := h
      obtain ⟨h1, _, h3, h4, h5, h6⟩ := mineAttempt_some ha
      exact ⟨last, hg, rfl, rfl, h1, h3, h4, h5, h6⟩

/-- Unfolding `chainLinkedB` on a chain of at least two blocks. -/
theorem chainLinkedB_cons_cons (sha : String → String) (a b : Block)
    (rest : List Block) :
    chainLinkedB sha (a :: b :: rest) =
      (validLink sha a b && chainLinkedB sha (b :: rest)) := rfl

/-- Appending a block that links correctly to the last block of a linked
chain keeps the chain linked. -/
theorem chainLinkedB_append (sha : String → String) (c : List Block)
    (last b : Block) (hc : chainLinkedB sha c = true)
    (hl : c.getLast? = some last) (hv : validLink sha last b = true) :
    chainLinkedB sha (c ++ [b]) = true := by
  induction c with
  | nil => simp at hl
  | cons a tail ih =>
    cases tail with
    | nil =>
      simp only [List.getLast?_singleton, Option.some.injEq] at hl
      subst hl
      simpa [chainLinkedB] using hv
    | cons a' tail' =>
      rw [chainLinkedB_cons_cons] at hc
      obtain ⟨hva, hc'⟩ := Bool.and_eq_true_iff.mp hc
      have hl' : (a' :: tail').getLast? = some last := by
        rw [List.getLast?_cons_cons] at hl
        exact hl
      have hrec := ih hc' hl'
      rw [List.cons_append, List.cons_append, chainLinkedB_cons_cons]
      rw [List.cons_append] at hrec
      exact Bool.and_eq_true_iff.mpr ⟨hva, hrec⟩

/-- Folding `balanceStep` over a transaction list adds the signed
contributions of the transactions. -/
theorem foldl_balanceStep (address : String) (txs : List Transaction) :
    ∀ bal : ℚ, List.foldl (balanceStep address) bal txs =
      bal + (txs.map (txDelta address)).sum := by
  induction txs with
  | nil => intro bal; simp
  | cons t ts ih =>
    intro bal
    rw [List.foldl_cons, ih, List.map_cons, List.sum_cons]
    have hstep : balanceStep address bal t = bal + txDelta address t := by
      unfold balanceStep txDelta
      split_ifs <;> ring
    rw [hstep]; ring

/-- The chain loop of `getBalance` adds the signed contributions of every
committed transaction. -/
theorem foldl_chain_balanceStep (address : String) (chain : List Block) :
    ∀ bal : ℚ,
    List.foldl
        (fun bal blk => List.foldl (balanceStep address) bal blk.Transactions)
        bal chain =
      bal + ((chain.map Block.Transactions).flatten.map (txDelta address)).sum := by
  induction chain with
  | nil => intro bal; simp
  | cons blk rest ih =>
    intro bal
    rw [List.foldl_cons, ih, foldl_balanceStep, List.map_cons,
      List.flatten_cons, List.map_append, List.sum_append]
    ring

/-! ## Claim theorems -/

/-- **C1, counterexample.**  The claim says `addBlock` validates the index,
previous-hash, hash and difficulty conditions and, when any fails, errors
with `ChainIntegrityViolation` leaving the chain unchanged.  On the
genesis-only ledger `bc1`, the block `bad1` fails every one of those checks
(shown here for the previous-hash and own-hash checks), yet `addBlock`
appends it and the chain changes. -/
theorem addBlock_no_validation_counterexample :
    getLastBlock bc1 = some (genesisBlock shaId 0) ∧
    bad1.PreviousHash ≠ (genesisBlock shaId 0).Hash ∧
    bad1.Index ≠ (genesisBlock shaId 0).Index + 1 ∧
    bad1.Hash ≠ calculateHash shaId bad1 ∧
    (addBlock bc1 bad1).Chain = bc1.Chain ++ [bad1] ∧
    (addBlock bc1 bad1).Chain ≠ bc1.Chain := by
  refine ⟨rfl, ?_, ?_, ?_, rfl, ?_⟩ <;> decide

/-- **C1, amended.**  `addBlock` performs no validation at all and cannot
fail: for every ledger state and every block, it unconditionally appends the
block, which becomes the new tip; the difficulty setting is untouched. -/
theorem addBlock_appends_unconditionally (bc : Blockchain) (b : Block) :
    (addBlock bc b).Chain = bc.Chain ++ [b] ∧
    getLastBlock (addBlock bc b) = some b ∧
    (addBlock bc b).Difficulty = bc.Difficulty := by
  refine ⟨rfl, ?_, rfl⟩
  unfold getLastBlock addBlock
  exact List.getLast?_concat _

/-- **C3.**  If `proofOfWork` returns `(nonce, hash)`, then `hash` is
`calculateHash` of the candidate with its nonce set to `nonce`, `hash` has at
least `difficulty` leading '0' hex digits, and `nonce` is the least
non-negative integer with that property: the search starts at 0, increments
by 1, and no smaller non-negative nonce satisfies the difficulty. -/
theorem proofOfWork_correct (sha : String → String) (b : Block)
    (difficulty fuel : Nat) (nonce : Int) (hash : String)
    (h : proofOfWork sha b difficulty fuel = some (nonce, hash)) :
    hash = calculateHash sha { b with Nonce := nonce } ∧
    hasPrefixB hash (String.mk (List.replicate difficulty '0')) = true ∧
    0 ≤ nonce ∧
    ∀ m : Int, 0 ≤ m → m < nonce →
      hasPrefixB (calculateHash sha { b with Nonce := m })
        (String.mk (List.replicate difficulty '0')) = false := by
  obtain ⟨h1, h2, h3, h4⟩ :=
    proofOfWorkAux_some sha b (String.mk (List.replicate difficulty '0'))
      fuel 0 nonce hash h
  exact ⟨h1, h2, h3, h4⟩

/-- **C3, witness.**  With the digest `shaC3` the search over `bC3` at
difficulty 2 succeeds at nonce 2, and the theorem's guarantees hold there:
in particular nonces 0 and 1 fail the difficulty. -/
theorem proofOfWork_correct_witness :
    proofOfWork shaC3 bC3 2 10 = some (2, "00yes") ∧
    ("00yes" = calculateHash shaC3 { bC3 with Nonce := 2 } ∧
      hasPrefixB "00yes" (String.mk (List.replicate 2 '0')) = true ∧
      0 ≤ (2 : Int) ∧
      ∀ m : Int, 0 ≤ m → m < 2 →
        hasPrefixB (calculateHash shaC3 { bC3 with Nonce := m })
          (String.mk (List.replicate 2 '0')) = false) :=
  ⟨by decide, proofOfWork_correct shaC3 bC3 2 10 2 "00yes" (by decide)⟩

/-- **C4.**  `flushMempool` removes and returns exactly the first
`min maxCount (length p)` pending transactions in order when
`0 < maxCount`, and all of them when `maxCount ≤ 0` or `maxCount` exceeds
the pending length; the remainder is the corresponding suffix, and the
result is empty when the pool is empty. -/
theorem flushMempool_correct (n : Int) (p : List Transaction) :
    (0 < n → flushMempool n p =
      (p.take (min n.toNat p.length), p.drop (min n.toNat p.length))) ∧
    ((n ≤ 0 ∨ (p.length : Int) < n) → flushMempool n p = (p, [])) ∧
    (p = [] → flushMempool n p = ([], [])) := by
  refine ⟨fun hpos => ?_, fun hall => ?_, fun hnil => ?_⟩
  · rw [flushMempool_eq]
    by_cases hbig : n > (p.length : Int)
    · rw [if_pos (Or.inr hbig)]
      have : min n.toNat p.length = p.length := by omega
      rw [this]
    · rw [if_neg (by omega)]
      have : min n.toNat p.length = n.toNat := by omega
      rw [this]
  · rw [flushMempool_eq, if_pos (by omega)]
    rw [List.take_length, List.drop_length]
  · subst hnil
    rw [flushMempool_eq]
    simp

/-- **C4, witness.**  Draining 2 of 3 pending transactions returns the first
two and keeps the third; a negative count drains everything; an empty pool
yields an empty result. -/
theorem flushMempool_correct_witness :
    (0 < (2 : Int) ∧
      flushMempool 2 [t1, tAlice, t1] =
        ([t1, tAlice, t1].take (min (2 : Int).toNat [t1, tAlice, t1].length),
         [t1, tAlice, t1].drop (min (2 : Int).toNat [t1, tAlice, t1].length))) ∧
    ((-1 : Int) ≤ 0 ∨ (([t1].length : Int) < -1)) ∧
    flushMempool (-1) [t1] = ([t1], []) ∧
    flushMempool 5 ([] : List Transaction) = ([], []) :=
  ⟨⟨by decide, (flushMempool_correct 2 [t1, tAlice, t1]).1 (by decide)⟩,
    Or.inl (by decide),
    (flushMempool_correct (-1) [t1]).2.1 (Or.inl (by decide)),
    (flushMempool_correct 5 []).2.2 rfl⟩

/-- **C2.**  In every state reachable from the genesis-only initial state by
the public operations (applied as atomic steps), every block except genesis
records its predecessor's hash as `PreviousHash` and its own `calculateHash`
as `Hash`: the chain is pairwise hash-linked. -/
theorem reachable_chainLinked (sha : String → String) (s : NodeState)
    (h : Reachable sha s) : chainLinkedB sha s.bc.Chain = true := by
  induction h with
  | init ts => rfl
  | step_submit s fromAddr toAddr amount id ts tx pool' hr hpost ih => exact ih
  | step_mine s maxTxs miner rewardId rewardTs blockTs fuel b s' hr hmine ih =>
    obtain ⟨last, hg, hbc, _, _, _, hprev, hhash, _⟩ := mine_some hmine
    rw [hbc]
    exact chainLinkedB_append sha s.bc.Chain last b ih hg
      (by simp [validLink, hprev, hhash])

/-- **C2, witness.**  The state reached by one mine call from the initial
state over the digest `sha0` (a genesis block plus one mined block) is
hash-linked. -/
theorem reachable_chainLinked_witness :
    chainLinkedB sha0 w2state.bc.Chain = true :=
  reachable_chainLinked sha0 w2state
    (Reachable.step_mine (initState sha0 0) 10 "m" "r" 1 2 1 w2block w2state
      (Reachable.init 0) (by decide))

/-- **C10.**  Every reachable state's chain starts with the genesis block
(whose index is 0) and is non-empty — appends are the only chain mutation —
so `getLastBlock`'s access to the element at position `length - 1` is in
bounds and it never fails. -/
theorem getLastBlock_never_fails (sha : String → String) (s : NodeState)
    (h : Reachable sha s) :
    s.bc.Chain ≠ [] ∧
    (∃ ts rest, s.bc.Chain = genesisBlock sha ts :: rest ∧
      (genesisBlock sha ts).Index = 0) ∧
    (getLastBlock s.bc).isSome = true := by
  induction h with
  | init ts => exact ⟨by simp [initState], ⟨ts, [], rfl, rfl⟩, rfl⟩
  | step_submit s fromAddr toAddr amount id ts tx pool' hr hpost ih => exact ih
  | step_mine s maxTxs miner rewardId rewardTs blockTs fuel b s' hr hmine ih =>
    obtain ⟨last, hg, hbc, _⟩ := mine_some hmine
    obtain ⟨hne, ⟨ts, rest, hhead, hidx⟩, _⟩ := ih
    rw [hbc]
    refine ⟨by simp [addBlock], ⟨ts, rest ++ [b], ?_, hidx⟩, ?_⟩
    · unfold addBlock
      rw [hhead]
      rfl
    · unfold getLastBlock addBlock
      simp [List.getLast?_concat]

/-- **C10, witness.**  The initial state over the identity digest: non-empty
chain headed by genesis, and `getLastBlock` succeeds. -/
theorem getLastBlock_never_fails_witness :
    (initState shaId 5).bc.Chain ≠ [] ∧
    (∃ ts rest, (initState shaId 5).bc.Chain = genesisBlock shaId ts :: rest ∧
      (genesisBlock shaId ts).Index = 0) ∧
    (getLastBlock (initState shaId 5).bc).isSome = true :=
  getLastBlock_never_fails shaId (initState shaId 5) (Reachable.init 5)

/-- **C6.**  `getBalance` equals the sum, over all transactions in all
committed blocks and in the mempool, of the signed amounts (positive where
the address is recipient, negative where it is sender); it is 0 for an
address appearing in no transaction, and the mempool is included
(pending-inclusive view). -/
theorem getBalance_correct (chain : List Block) (pool : List Transaction)
    (address : String) :
    getBalance chain pool address = balanceSpec chain pool address ∧
    ((∀ tx ∈ (chain.map Block.Transactions).flatten ++ pool,
        tx.To ≠ address ∧ tx.From ≠ address) →
      getBalance chain pool address = 0) := by
  have hmain : getBalance chain pool address = balanceSpec chain pool address := by
    simp only [getBalance, balanceSpec]
    rw [foldl_chain_balanceStep, foldl_balanceStep, List.map_append,
      List.sum_append]
    ring
  refine ⟨hmain, fun hz => ?_⟩
  rw [hmain]
  simp only [balanceSpec]
  rw [List.sum_eq_zero]
  intro x hx
  rw [List.mem_map] at hx
  obtain ⟨tx, htx, rfl⟩ := hx
  obtain ⟨h1, h2⟩ := hz tx htx
  simp [txDelta, h1, h2]

/-- **C6, witness.**  With one mempool transaction (alice → bob, 5): bob's
balance equals the spec-side sum, and carol — appearing nowhere — has
balance 0. -/
theorem getBalance_correct_witness :
    getBalance [genesisBlock shaId 0] [tAlice] "bob" =
      balanceSpec [genesisBlock shaId 0] [tAlice] "bob" ∧
    (∀ tx ∈ (([genesisBlock shaId 0].map Block.Transactions).flatten ++
        [tAlice]), tx.To ≠ "carol" ∧ tx.From ≠ "carol") ∧
    getBalance [genesisBlock shaId 0] [tAlice] "carol" = 0 :=
  ⟨(getBalance_correct [genesisBlock shaId 0] [tAlice] "bob").1,
    by decide,
    (getBalance_correct [genesisBlock shaId 0] [tAlice] "carol").2 (by decide)⟩

/-- **C8.**  The submission handler rejects exactly the requests with an
empty sender, an empty recipient, or a non-positive amount, leaving the
mempool unchanged; on success the pool grows by exactly the created
transaction, which carries the submitted sender, recipient and amount
together with the generated identifier and the creation timestamp, and a
subsequent drain returns it with those field values. -/
theorem postTransactions_correct (fromAddr toAddr : String) (amount : ℚ)
    (id : String) (ts : Int) (pool : List Transaction) :
    (¬ (fromAddr ≠ "" ∧ toAddr ≠ "" ∧ 0 < amount) →
      postTransactions fromAddr toAddr amount id ts pool =
        (Except.error "InvalidTransaction", pool)) ∧
    ((fromAddr ≠ "" ∧ toAddr ≠ "" ∧ 0 < amount) →
      postTransactions fromAddr toAddr amount id ts pool =
        (Except.ok (createTransaction fromAddr toAddr amount id ts),
          pool ++ [createTransaction fromAddr toAddr amount id ts]) ∧
      (pool ++ [createTransaction fromAddr toAddr amount id ts]).length =
        pool.length + 1 ∧
      (createTransaction fromAddr toAddr amount id ts).From = fromAddr ∧
      (createTransaction fromAddr toAddr amount id ts).To = toAddr ∧
      (createTransaction fromAddr toAddr amount id ts).Amount = amount ∧
      (createTransaction fromAddr toAddr amount id ts).ID = id ∧
      (createTransaction fromAddr toAddr amount id ts).Timestamp = ts ∧
      createTransaction fromAddr toAddr amount id ts ∈
        (flushMempool 0
          (pool ++ [createTransaction fromAddr toAddr amount id ts])).1) := by
  constructor
  · intro hbad
    unfold postTransactions
    rw [if_pos]
    push_neg at hbad
    by_cases h1 : fromAddr = ""
    · exact Or.inl h1
    · by_cases h2 : toAddr = ""
      · exact Or.inr (Or.inl h2)
      · exact Or.inr (Or.inr (by simpa using hbad h1 h2))
  · intro hok
    obtain ⟨h1, h2, h3⟩ := hok
    have heq : postTransactions fromAddr toAddr amount id ts pool =
        (Except.ok (createTransaction fromAddr toAddr amount id ts),
          pool ++ [createTransaction fromAddr toAddr amount id ts]) := by
      unfold postTransactions addTransactionToMempool
      rw [if_neg]
      push_neg
      exact ⟨h1, h2, h3⟩
    refine ⟨heq, by simp, rfl, rfl, rfl, rfl, rfl, ?_⟩
    rw [flushMempool_eq, if_pos (Or.inl le_rfl)]
    rw [List.take_of_length_le (by simp)]
    simp

/-- **C8, witness.**  Submitting (alice → bob, 5) succeeds with the stored
fields equal to the submitted ones, and submitting with an empty sender
fails leaving the pool unchanged. -/
theorem postTransactions_correct_witness :
    (("alice" : String) ≠ "" ∧ ("bob" : String) ≠ "" ∧ (0 : ℚ) < 5) ∧
    postTransactions "alice" "bob" 5 "id1" 7 [] =
      (Except.ok (createTransaction "alice" "bob" 5 "id1" 7),
        [] ++ [createTransaction "alice" "bob" 5 "id1" 7]) ∧
    (¬ (("" : String) ≠ "" ∧ ("bob" : String) ≠ "" ∧ (0 : ℚ) < 5)) ∧
    postTransactions "" "bob" 5 "id2" 7 [t1] =
      (Except.error "InvalidTransaction", [t1]) :=
  ⟨⟨by decide, by decide, by norm_num⟩,
    ((postTransactions_correct "alice" "bob" 5 "id1" 7 []).2
      ⟨by decide, by decide, by norm_num⟩).1,
    by simp,
    (postTransactions_correct "" "bob" 5 "id2" 7 [t1]).1 (by simp)⟩

/-- **C5, counterexample.**  The claim predicts, for maxCount `m = 0` and
one pending transaction, a block of `1 + min(0,1) = 1` transaction and a
mempool of `1 - min(0,1) = 1` afterwards.  The code clamps `m ≤ 0` to "take
everything": the mined block holds 2 transactions and the mempool 0. -/
theorem mine_min_counterexample :
    (mine sha0 0 "m" "r" 1 2 1 s5state).map
        (fun r => (r.1.Transactions.length, r.2.pool.length)) =
      some (2, 0) ∧
    (1 + min (0 : Nat) 1, 1 - min (0 : Nat) 1) ≠ ((2 : Nat), (0 : Nat)) := by
  exact ⟨by decide, by decide⟩

/-- **C5, amended.**  For a mine request with max-transaction count `m`
against pending sequence `p`: when `0 < m` the mined block's transactions
are exactly the reward transaction (sender "network", amount 1, recipient
the requested miner address) followed by the first `min m (length p)`
pending transactions in submission order, and the mempool afterwards holds
the remaining `length p - min m (length p)` in order; when `m ≤ 0` the block
takes the reward followed by all of `p` and the mempool is left empty. -/
theorem mine_transactions_correct (sha : String → String) (maxTxs : Int)
    (miner rewardId : String) (rewardTs blockTs : Int) (fuel : Nat)
    (s : NodeState) (b : Block) (s' : NodeState)
    (h : mine sha maxTxs miner rewardId rewardTs blockTs fuel s =
      some (b, s')) :
    (0 < maxTxs →
      b.Transactions = rewardTransaction miner rewardId rewardTs ::
        s.pool.take (min maxTxs.toNat s.pool.length) ∧
      s'.pool = s.pool.drop (min maxTxs.toNat s.pool.length) ∧
      s'.pool.length = s.pool.length - min maxTxs.toNat s.pool.length) ∧
    (maxTxs ≤ 0 →
      b.Transactions = rewardTransaction miner rewardId rewardTs :: s.pool ∧
      s'.pool = []) := by
  obtain ⟨last, _, _, hpool, _, htxs, _⟩ := mine_some h
  rw [flushMempool_eq] at hpool htxs
  constructor
  · intro hpos
    have hkey : (if maxTxs ≤ 0 ∨ maxTxs > (s.pool.length : Int)
        then s.pool.length else maxTxs.toNat) = min maxTxs.toNat s.pool.length := by
      by_cases hbig : maxTxs > (s.pool.length : Int)
      · rw [if_pos (Or.inr hbig)]; omega
      · rw [if_neg (by omega)]; omega
    rw [hkey] at hpool htxs
    exact ⟨htxs, hpool, by rw [hpool]; simp⟩
  · intro hneg
    rw [if_pos (Or.inl hneg)] at hpool htxs
    rw [List.take_length] at htxs
    rw [List.drop_length] at hpool
    exact ⟨htxs, hpool⟩

/-- **C5, witness.**  Spec Scenario 3: fifteen pending transactions, mine
with `maxTxs = 10` → the block holds the reward followed by the first ten in
order, and the mempool afterwards holds exactly the remaining five. -/
theorem mine_transactions_correct_witness :
    0 < (10 : Int) ∧
    b15.Transactions = rewardTransaction "m" "r" 1 ::
      pool15.take (min (10 : Int).toNat pool15.length) ∧
    s15after.pool = pool15.drop (min (10 : Int).toNat pool15.length) ∧
    s15after.pool.length = pool15.length - min (10 : Int).toNat pool15.length :=
  ⟨by decide,
    (mine_transactions_correct sha0 10 "m" "r" 1 2 1 s15 b15 s15after
      (by decide)).1 (by decide)⟩

/-- **C7, counterexample.**  The claim says that of two mine calls racing on
one tip exactly one succeeds and the loser fails with `StaleTipError`,
returning its transactions to the mempool.  In the code both appends return
normally: with both attempts built from the tip `gB7`, both candidate blocks
are found (`isSome`), both end up in the chain, and the second block's
`PreviousHash` disagrees with its actual predecessor — the chain is no
longer hash-linked, and nothing was rolled back or returned. -/
theorem stale_mine_counterexample :
    attemptA7.isSome = true ∧ attemptB7.isSome = true ∧
    race7.Chain = [gB7, bA7, bB7] ∧
    bB7.PreviousHash ≠ bA7.Hash ∧
    chainLinkedB shaLen race7.Chain = false :=
  ⟨by decide, by decide, rfl, by decide, by decide⟩

/-- **C7, amended.**  A mine attempt whose candidate was built from a stale
tip does not fail: `addBlock` has no failure path, so when two attempts are
built from the same tip and both searches succeed, both blocks are appended
(the chain grows by both, the second becoming the tip), each recording the
shared tip's hash as its `PreviousHash`; no `StaleTipError` exists and the
drained transactions stay inside the stale block instead of returning to the
mempool. -/
theorem stale_mine_both_append (sha : String → String) (s : NodeState)
    (tip bA bB : Block) (selA selB : List Transaction) (tsA tsB : Int)
    (fuelA fuelB : Nat)
    (_hTip : getLastBlock s.bc = some tip)
    (hA : mineAttempt sha tip selA tsA s.bc.Difficulty fuelA = some bA)
    (hB : mineAttempt sha tip selB tsB s.bc.Difficulty fuelB = some bB) :
    (addBlock (addBlock s.bc bA) bB).Chain = s.bc.Chain ++ [bA, bB] ∧
    getLastBlock (addBlock (addBlock s.bc bA) bB) = some bB ∧
    bA.PreviousHash = tip.Hash ∧ bB.PreviousHash = tip.Hash := by
  obtain ⟨_, _, _, hpA, _, _⟩ := mineAttempt_some hA
  obtain ⟨_, _, _, hpB, _, _⟩ := mineAttempt_some hB
  refine ⟨by simp [addBlock], ?_, hpA, hpB⟩
  unfold getLastBlock addBlock
  simp [List.getLast?_concat]

/-- **C7, amended, witness.**  The concrete race on the tip `gB7`: both
blocks appended, the stale one linking to the old tip's hash. -/
theorem stale_mine_both_append_witness :
    (addBlock (addBlock st7.bc bA7) bB7).Chain = st7.bc.Chain ++ [bA7, bB7] ∧
    getLastBlock (addBlock (addBlock st7.bc bA7) bB7) = some bB7 ∧
    bA7.PreviousHash = gB7.Hash ∧ bB7.PreviousHash = gB7.Hash :=
  stale_mine_both_append shaLen st7 gB7 bA7 bB7
    [rewardTransaction "m" "ra" 1] [rewardTransaction "m" "rb" 2] 1 2 1 1
    (by decide) (by decide) (by decide)

/-- Whatever block the lab1 mining loop returns has a hash that ends in "09"
and equals `calculateHashHlukhov` of the block itself. -/
theorem mineHlukhovAux_some (sha : String → String) (fuel : Nat) :
    ∀ (b r : BlockHlukhov), mineHlukhovAux sha fuel b = some r →
    hasSuffixB r.Hash "09" = true ∧
    r.Hash = calculateHashHlukhov sha r := by
  induction fuel with
  | zero => intro b r h; simp [mineHlukhovAux] at h
  | succ fuel ih =>
    intro b r h
    simp only [mineHlukhovAux] at h
    by_cases hs : hasSuffixB (calculateHashHlukhov sha b) "09" = true
    · rw [if_pos hs] at h
      obtain rfl := Option.some_inj.mp h
      exact ⟨hs, rfl⟩
    · rw [if_neg hs] at h
      exact ih _ r h

/-- If some nonce `n` at or after the current one satisfies the "09" suffix
condition, the lab1 mining loop returns within `n - b.Nonce + 1` steps. -/
theorem mineHlukhovAux_terminates (sha : String → String) (fuel : Nat) :
    ∀ (b : BlockHlukhov) (n : Int), b.Nonce ≤ n → n < b.Nonce + fuel →
    hasSuffixB (calculateHashHlukhov sha { b with Nonce := n }) "09" = true →
    (mineHlukhovAux sha fuel b).isSome = true := by
  induction fuel with
  | zero => intro b n h1 h2 _; omega
  | succ fuel ih =>
    intro b n h1 h2 hsat
    simp only [mineHlukhovAux]
    by_cases hs : hasSuffixB (calculateHashHlukhov sha b) "09" = true
    · rw [if_pos hs]; rfl
    · rw [if_neg hs]
      have hne : b.Nonce ≠ n := fun heq =>
        hs (by rw [← heq] at hsat; exact hsat)
      exact ih { b with Hash := calculateHashHlukhov sha b, Nonce := b.Nonce + 1 }
        n (by show b.Nonce + 1 ≤ n; omega)
        (by show n < b.Nonce + 1 + (fuel : Int); omega) hsat

/-- **C9.**  In the lab1 fixed-suffix variant, under the preconditions that
the chain is non-empty and that some non-negative nonce gives the candidate
(index = chain length, nonce search from 0) a hash ending in "09",
`addBlockHlukhov`'s mining loop terminates (some fuel suffices for the
fuel-free Go loop) and appends exactly one block whose hash ends in "09" and
equals `calculateHashHlukhov` of the block; without such a nonce no fuel
bound exists, matching the unbounded search. -/
theorem addBlockHlukhov_terminates (sha : String → String)
    (blocks : List BlockHlukhov) (data ts : String) (prev : BlockHlukhov)
    (hlast : blocks.getLast? = some prev)
    (hsat : ∃ n : Nat, hasSuffixB (calculateHashHlukhov sha
      { Index := (blocks.length : Int), Timestamp := ts, Data := data,
        PrevHash := prev.Hash, Hash := "", Nonce := (n : Int) }) "09" = true) :
    ∃ (fuel : Nat) (bNew : BlockHlukhov),
      addBlockHlukhov sha blocks data ts fuel = some (blocks ++ [bNew]) ∧
      hasSuffixB bNew.Hash "09" = true ∧
      bNew.Hash = calculateHashHlukhov sha bNew := by
  obtain ⟨n, hn⟩ := hsat
  have hterm := mineHlukhovAux_terminates sha (n + 1)
    { Index := (blocks.length : Int), Timestamp := ts, Data := data,
      PrevHash := prev.Hash, Hash := "", Nonce := 0 }
    (n : Int) (by simp) (by show (n : Int) < 0 + ((n + 1 : Nat) : Int); omega) hn
  cases hres : mineHlukhovAux sha (n + 1)
      { Index := (blocks.length : Int), Timestamp := ts, Data := data,
        PrevHash := prev.Hash, Hash := "", Nonce := 0 } with
  | none => rw [hres] at hterm; simp at hterm
  | some r =>
    obtain ⟨hsuf, hhash⟩ := mineHlukhovAux_some sha (n + 1) _ r hres
    refine ⟨n + 1, r, ?_, hsuf, hhash⟩
    unfold addBlockHlukhov
    rw [hlast]
    show Option.map (fun b => blocks ++ [b]) (mineHlukhovAux sha (n + 1)
      { Index := (blocks.length : Int), Timestamp := ts, Data := data,
        PrevHash := prev.Hash, Hash := "", Nonce := 0 }) = some (blocks ++ [r])
    rw [hres]
    rfl

/-- **C9, witness.**  Over the digest `shaC9`, the chain `[gH9]` and data
"d": nonce 1 satisfies the suffix condition (nonce 0 does not), so the
mining loop terminates and appends a "09"-suffixed, correctly hashed
block. -/
theorem addBlockHlukhov_terminates_witness :
    ([gH9].getLast? = some gH9) ∧
    (∃ n : Nat, hasSuffixB (calculateHashHlukhov shaC9
      { Index := (([gH9] : List BlockHlukhov).length : Int), Timestamp := "u",
        Data := "d", PrevHash := gH9.Hash, Hash := "",
        Nonce := (n : Int) }) "09" = true) ∧
    (∃ (fuel : Nat) (bNew : BlockHlukhov),
      addBlockHlukhov shaC9 [gH9] "d" "u" fuel = some ([gH9] ++ [bNew]) ∧
      hasSuffixB bNew.Hash "09" = true ∧
      bNew.Hash = calculateHashHlukhov shaC9 bNew) :=
  ⟨rfl, ⟨1, by decide⟩,
    addBlockHlukhov_terminates shaC9 [gH9] "d" "u" gH9 rfl ⟨1, by decide⟩⟩

end Duikt
